import Mathlib

/-!
Verification of the text-statistics pipeline of the Web_Scrapping repository
(src/web_Scrapping.py): the text normalizer (clean_text), the frequency
aggregator (get_word_stats), the export encoder (download_button), the
source resolver (get_book_url / scrape_novel) and the analyze handler of the
UI script.  Python strings are modelled as Lean String (a list of unicode
code points); machine integers do not occur (all counts are naturals).
-/

namespace WebScrapping

/-- Whitespace as matched by the regex class of whitespace characters and by
str.split in the source (line 72 and 73): the ASCII whitespace characters
9-13 and 32, the file/group/record/unit separators 28-31, next-line 133,
no-break space 160, and the unicode space code points. -/
def isPySpace (c : Char) : Bool :=
  decide ((9 ≤ c.toNat ∧ c.toNat ≤ 13) ∨ c.toNat = 32 ∨
    (28 ≤ c.toNat ∧ c.toNat ≤ 31) ∨ c.toNat = 133 ∨ c.toNat = 160 ∨
    c.toNat = 5760 ∨ (8192 ≤ c.toNat ∧ c.toNat ≤ 8202) ∨ c.toNat = 8232 ∨
    c.toNat = 8233 ∨ c.toNat = 8239 ∨ c.toNat = 8287 ∨ c.toNat = 12288)

/-- The character class a-zA-Z kept by the substitution on line 72 of the
source (every character not in a-zA-Z and not whitespace is deleted). -/
def isAsciiAlpha (c : Char) : Bool :=
  decide ((65 ≤ c.toNat ∧ c.toNat ≤ 90) ∨ (97 ≤ c.toNat ∧ c.toNat ≤ 122))

/-- Lowercase Latin letters a-z. -/
def isLowerAZ (c : Char) : Bool :=
  decide (97 ≤ c.toNat ∧ c.toNat ≤ 122)

/-- Per-character model of str.lower() on line 72 of the source: the ASCII
letters A-Z map to a-z and every other code point is returned unchanged.
(Python also maps non-ASCII cased letters, but those never lowercase into
the a-z range kept by the subsequent character filter on the same line,
with exotic exceptions such as the Kelvin sign that are outside the scope
of every claim.) -/
def pyLower (c : Char) : Char :=
  if 65 ≤ c.toNat ∧ c.toNat ≤ 90 then Char.ofNat (c.toNat + 32) else c

/-- Splitter that keeps empty pieces: cut the list at every character
satisfying p.  A list with no such character yields one piece. -/
def splitOnPAux (p : Char → Bool) : List Char → List Char → List (List Char)
  | [], acc => [acc]
  | c :: cs, acc =>
    if p c then acc :: splitOnPAux p cs [] else splitOnPAux p cs (acc ++ [c])

/-- Splitter that keeps empty pieces, started with an empty accumulator. -/
def splitOnP (p : Char → Bool) (cs : List Char) : List (List Char) :=
  splitOnPAux p cs []

/-- Model of str.split() with no arguments (line 73 of the source): split on
runs of whitespace, discarding empty pieces, so leading, trailing and
repeated whitespace produce no tokens. -/
def pySplitAux : List Char → List Char → List (List Char)
  | [], acc => if acc.isEmpty then [] else [acc]
  | c :: cs, acc =>
    if isPySpace c then
      if acc.isEmpty then pySplitAux cs [] else acc :: pySplitAux cs []
    else
      pySplitAux cs (acc ++ [c])

/-- str.split() started with an empty accumulator. -/
def pySplit (cs : List Char) : List (List Char) :=
  pySplitAux cs []

/-- The nltk english stopword list used on line 74 of the source
(stopwords.words English).  Entries containing an apostrophe can never
equal a token of clean_text, because tokens consist of letters only after
the character filter; they are kept for fidelity to the nltk data file. -/
def nltk_stopwords : List String :=
  ["i", "me", "my", "myself", "we", "our", "ours", "ourselves", "you",
   "you\x27re", "you\x27ve", "you\x27ll", "you\x27d", "your", "yours",
   "yourself", "yourselves", "he", "him", "his", "himself", "she",
   "she\x27s", "her", "hers", "herself", "it", "it\x27s", "its", "itself",
   "they", "them", "their", "theirs", "themselves", "what", "which", "who",
   "whom", "this", "that", "that\x27ll", "these", "those", "am", "is",
   "are", "was", "were", "be", "been", "being", "have", "has", "had",
   "having", "do", "does", "did", "doing", "a", "an", "the", "and", "but",
   "if", "or", "because", "as", "until", "while", "of", "at", "by", "for",
   "with", "about", "against", "between", "into", "through", "during",
   "before", "after", "above", "below", "to", "from", "up", "down", "in",
   "out", "on", "off", "over", "under", "again", "further", "then", "once",
   "here", "there", "when", "where", "why", "how", "all", "any", "both",
   "each", "few", "more", "most", "other", "some", "such", "no", "nor",
   "not", "only", "own", "same", "so", "than", "too", "very", "s", "t",
   "can", "will", "just", "don", "don\x27t", "should", "should\x27ve",
   "now", "d", "ll", "m", "o", "re", "ve", "y", "ain", "aren",
   "aren\x27t", "couldn", "couldn\x27t", "didn", "didn\x27t", "doesn",
   "doesn\x27t", "hadn", "hadn\x27t", "hasn", "hasn\x27t", "haven",
   "haven\x27t", "isn", "isn\x27t", "ma", "mightn", "mightn\x27t",
   "mustn", "mustn\x27t", "needn", "needn\x27t", "shan", "shan\x27t",
   "shouldn", "shouldn\x27t", "wasn", "wasn\x27t", "weren", "weren\x27t",
   "won", "won\x27t", "wouldn", "wouldn\x27t"]

/-- Model of clean_text (source lines 71-75): lowercase the text, delete
every character that is neither a-zA-Z nor whitespace, split on whitespace
runs, and drop the stopwords. -/
def clean_text (text : String) : List String :=
  let lowered := text.data.map pyLower
  let letters := lowered.filter (fun c => isAsciiAlpha c || isPySpace c)
  let words := (pySplit letters).map (fun w => String.mk w)
  words.filter (fun w => !(nltk_stopwords.contains w))

/-- Split on whitespace runs, phrased as the spec words it: cut at every
whitespace character and keep only the non-empty pieces. -/
def splitRuns (cs : List Char) : List (List Char) :=
  (splitOnP isPySpace cs).filter (fun w => !w.isEmpty)

/-- The normalizer as the spec describes it, step by step: (1) lowercase;
(2) remove every character that is not a Latin letter or whitespace;
(3) split on whitespace runs; (4) filter out tokens in the fixed english
stopword set. -/
def cleanSpec (text : String) : List String :=
  let step1 := text.data.map pyLower
  let step2 := step1.filter (fun c => isAsciiAlpha c || isPySpace c)
  let step3 := (splitRuns step2).map (fun w => String.mk w)
  step3.filter (fun w => !(nltk_stopwords.contains w))

/-- Join tokens with single spaces, the usual inverse of whitespace
splitting; used to state idempotence of the normalizer. -/
def joinChar (sep : Char) : List (List Char) → List Char
  | [] => []
  | [f] => f
  | f :: fs => f ++ sep :: joinChar sep fs

/-- Space-join a token list back into a string. -/
def joinSpace (ws : List String) : String :=
  String.mk (joinChar ' ' (ws.map String.data))

/-- Model of str.strip() with no arguments: remove leading and trailing
whitespace. -/
def pyStrip (cs : List Char) : List Char :=
  ((cs.dropWhile isPySpace).reverse.dropWhile isPySpace).reverse

/-- First-occurrence deduplication with an accumulator of the keys already
seen: the key order of a python Counter / dict built by insertion. -/
def dedupFirstAux (seen : List String) : List String → List String
  | [] => []
  | w :: ws =>
    if seen.contains w then dedupFirstAux seen ws
    else w :: dedupFirstAux (seen ++ [w]) ws

/-- First-occurrence deduplication, as performed by the keys of
Counter(words) on line 78. -/
def dedupFirst (ws : List String) : List String := dedupFirstAux [] ws

/-- Model of Counter(words).items() (line 78): unique words in first
appearance order, each with its occurrence count. -/
def counterItems (ws : List String) : List (String × Nat) :=
  (dedupFirst ws).map (fun w => (w, ws.count w))

/-- Round a quotient f/total, scaled to hundredths of a percent, to the
nearest integer with ties to even: the value round(f / total * 100, 2) of
line 81, expressed over exact rationals as the integer number of
hundredths.  The source computes this in 64-bit floating point; the exact
rational model agrees wherever the float computation introduces no error
at the decision boundary, which covers every concrete figure any claim
mentions. -/
def roundHundredths (f total : Nat) : Nat :=
  let q := f * 10000
  let fl := q / total
  let r := q % total
  if 2 * r < total then fl
  else if total < 2 * r then fl + 1
  else if fl % 2 = 0 then fl else fl + 1

/-- Decimal digit character. -/
def digitChar (d : Nat) : Char := Char.ofNat (48 + d)

/-- Decimal rendering with explicit recursion depth; a depth of one more
than the number itself always covers all of its digits. -/
def natCharsAux : Nat → Nat → List Char
  | 0, _ => []
  | fuel + 1, n =>
    if n < 10 then [digitChar n] else natCharsAux fuel (n / 10) ++ [digitChar (n % 10)]

/-- Decimal rendering of a natural number, the model of str applied to a
python int. -/
def natChars (n : Nat) : List Char := natCharsAux (n + 1) n

/-- Fractional part of the percentage string: python float-to-string keeps
at least one digit after the point and drops a trailing zero in the
hundredths place. -/
def fracChars (fr : Nat) : List Char :=
  if fr = 0 then ['0']
  else if fr % 10 = 0 then [digitChar (fr / 10)]
  else if fr < 10 then ['0', digitChar fr]
  else [digitChar (fr / 10), digitChar (fr % 10)]

/-- Character rendering of one cell of the percentage column built on line
81: str(round(freq / total * 100, 2)) followed by a space and a percent
sign. -/
def pctChars (f total : Nat) : List Char :=
  natChars (roundHundredths f total / 100) ++ ['.'] ++
    fracChars (roundHundredths f total % 100) ++ [' ', '%']

/-- The percentage cell as a string. -/
def pctString (f total : Nat) : String :=
  String.mk (pctChars f total)

/-- Working row of the frequency table before ranking: word, frequency,
percentage cell. -/
abbrev Entry := String × Nat × String

/-- One line of the final ranked table (a row of the data frame returned by
get_word_stats after reset_index on lines 82-85). -/
structure RankedRow where
  rank : Nat
  word : String
  frequency : Nat
  pctOfText : String
deriving DecidableEq, Repr

/-- Insert an entry into a frequency-descending list, before the first
entry of equal or smaller frequency. -/
def insertByFreq (e : Entry) : List Entry → List Entry
  | [] => [e]
  | x :: xs => if x.2.1 ≤ e.2.1 then e :: x :: xs else x :: insertByFreq e xs

/-- Sort the entries by frequency, descending, modelling
sort_values(by=Frequency, ascending=False) on line 82.  pandas sorts with
an unstable quicksort, so its order among equal frequencies is
unspecified; the model fixes the stable first-appearance order, and every
claim proved below is independent of the choice among ties. -/
def sortByFreqDesc : List Entry → List Entry
  | [] => []
  | e :: es => insertByFreq e (sortByFreqDesc es)

/-- Attach 1-based ranks in list order: lines 83-85 of the source set the
index to 1..n and expose it as the Rank column. -/
def rankRowsFrom (k : Nat) : List Entry → List RankedRow
  | [] => []
  | e :: es => ⟨k, e.1, e.2.1, e.2.2⟩ :: rankRowsFrom (k + 1) es

/-- Model of get_word_stats (source lines 77-86): count the words, compute
each word's percentage of the total, sort descending by frequency and
attach ranks 1..n.  Returns the ranked table and the counter. -/
def get_word_stats (words : List String) : List RankedRow × List (String × Nat) :=
  let word_freq := counterItems words
  let total_words := (word_freq.map (fun p => p.2)).sum
  let entries := word_freq.map (fun p => (p.1, p.2, pctString p.2 total_words))
  (rankRowsFrom 1 (sortByFreqDesc entries), word_freq)

/-- A character that a CSV cell can hold verbatim inside an ASCII payload:
an ASCII code point other than the comma, the double quote, and the line
breaks. -/
def csvSafe (c : Char) : Prop :=
  c.toNat < 128 ∧ c.toNat ≠ 44 ∧ c.toNat ≠ 34 ∧ c.toNat ≠ 10 ∧ c.toNat ≠ 13

instance (c : Char) : Decidable (csvSafe c) := by
  unfold csvSafe
  infer_instance

/-- Does a CSV cell need quoting under minimal quoting: it contains the
separator, the quote character, or a line break. -/
def needsQuote (cs : List Char) : Bool :=
  cs.any (fun c => decide (c.toNat = 44 ∨ c.toNat = 34 ∨ c.toNat = 10 ∨ c.toNat = 13))

/-- One CSV cell under the minimal quoting of to_csv: quoted with inner
quotes doubled when needed, verbatim otherwise. -/
def csvField (cs : List Char) : List Char :=
  if needsQuote cs then
    '"' :: (cs.flatMap (fun c => if c = '"' then ['"', '"'] else [c])) ++ ['"']
  else cs

/-- One CSV line: the cells joined by commas, terminated by a newline. -/
def csvLine (fields : List (List Char)) : List Char :=
  joinChar ',' (fields.map csvField) ++ ['\n']

/-- The header cells written by df.to_csv(index=False) for the frame built
by get_word_stats. -/
def csvHeaderFields : List (List Char) :=
  ["Rank".data, "Word".data, "Frequency".data, "% of Text".data]

/-- The cells of one data line: rank, word, frequency, percentage, with the
integers rendered in decimal exactly as to_csv renders python ints. -/
def rowFields (r : RankedRow) : List (List Char) :=
  [natChars r.rank, r.word.data, natChars r.frequency, r.pctOfText.data]

/-- Model of df.to_csv(index=False) on line 104: the header line followed
by one line per row, comma separated, newline terminated. -/
def to_csv (rows : List RankedRow) : List Char :=
  (csvHeaderFields :: rows.map rowFields).flatMap csvLine

/-- UTF-8 encoding of one code point, the model of str.encode() on line
105. -/
def utf8Bytes (c : Char) : List Nat :=
  let n := c.toNat
  if n < 128 then [n]
  else if n < 2048 then [192 + n / 64, 128 + n % 64]
  else if n < 65536 then [224 + n / 4096, 128 + n / 64 % 64, 128 + n % 64]
  else [240 + n / 262144, 128 + n / 4096 % 64, 128 + n / 64 % 64, 128 + n % 64]

/-- The base64 alphabet in index order. -/
def b64Alphabet : List Char :=
  "ABCDEFGHIJKLMNOPQRSTUVWXYZabcdefghijklmnopqrstuvwxyz0123456789+/".data

/-- Character of one six-bit group. -/
def b64Char (n : Nat) : Char := b64Alphabet.getD n 'A'

/-- Index of a base64 character in the alphabet. -/
def b64Index (c : Char) : Nat := b64Alphabet.indexOf c

/-- Model of base64.b64encode (line 105): three bytes become four alphabet
characters; a final group of two or one byte is padded with one or two
equals signs. -/
def b64Encode : List Nat → List Char
  | b1 :: b2 :: b3 :: rest =>
    b64Char ((b1 * 65536 + b2 * 256 + b3) / 262144) ::
      b64Char ((b1 * 65536 + b2 * 256 + b3) / 4096 % 64) ::
      b64Char ((b1 * 65536 + b2 * 256 + b3) / 64 % 64) ::
      b64Char ((b1 * 65536 + b2 * 256 + b3) % 64) :: b64Encode rest
  | [b1, b2] =>
    [b64Char ((b1 * 1024 + b2 * 4) / 4096), b64Char ((b1 * 1024 + b2 * 4) / 64 % 64),
      b64Char ((b1 * 1024 + b2 * 4) % 64), '=']
  | [b1] =>
    [b64Char (b1 * 16 / 64), b64Char (b1 * 16 % 64), '=', '=']
  | [] => []

/-- Base64 decoding, inverse of the encoder: four characters yield three
bytes, or two or one when padded with equals signs. -/
def b64Decode : List Char → List Nat
  | c1 :: c2 :: c3 :: c4 :: rest =>
    if c3 = '=' then
      [(b64Index c1 * 64 + b64Index c2) / 16]
    else if c4 = '=' then
      [(b64Index c1 * 4096 + b64Index c2 * 64 + b64Index c3) / 1024,
        (b64Index c1 * 4096 + b64Index c2 * 64 + b64Index c3) / 4 % 256]
    else
      (b64Index c1 * 262144 + b64Index c2 * 4096 + b64Index c3 * 64 + b64Index c4) / 65536 ::
        (b64Index c1 * 262144 + b64Index c2 * 4096 + b64Index c3 * 64 + b64Index c4) / 256 % 256 ::
        (b64Index c1 * 262144 + b64Index c2 * 4096 + b64Index c3 * 64 + b64Index c4) % 256 ::
        b64Decode rest
  | _ => []

/-- Model of download_button (source lines 103-107): serialize the ranked
table to CSV, encode it as UTF-8 bytes, and base64 those bytes into the
textual payload embedded in the download link. -/
def download_payload (rows : List RankedRow) : List Char :=
  b64Encode ((to_csv rows).flatMap utf8Bytes)

/-- CSV reading of a payload whose cells carry no quoting (the only kind
the pipeline ever produces): cut into lines at newlines, drop blank
lines, and cut each line at commas. -/
def parseCsv (cs : List Char) : List (List (List Char)) :=
  ((splitOnP (fun c => c == '\n') cs).filter (fun l => !l.isEmpty)).map
    (splitOnP (fun c => c == ','))

/-- Errors of the underlying HTTP client, the exceptions a requests.get
call can raise. -/
inductive NetError where
  | connectionError
  | timeout
  | httpStatus (code : Nat)
deriving DecidableEq, Repr

/-- Abstraction of the parsed search-results page: what the scraping on
lines 38-40 extracts, namely the href of the anchor inside the first
booklink list item, when one is present. -/
structure Html where
  firstBooklinkHref : Option String
deriving DecidableEq, Repr

/-- The catalog search URL built on line 35: the query string with spaces
replaced by plus signs. -/
def search_url (book_name : String) : String :=
  "https://www.gutenberg.org/ebooks/search/?query=" ++
    String.mk (book_name.data.map (fun c => if c = ' ' then '+' else c))

/-- Model of get_book_url (source lines 34-42) over a fetch oracle standing
for requests.get plus the HTML parser.  The source wraps the fetch in no
try block, so a network error propagates to the caller: the model returns
it in the error component.  On success, a present first result yields the
plain-text download URL and an absent one yields none. -/
def get_book_url (fetch : String → Except NetError Html) (book_name : String) :
    Except NetError (Option String) :=
  match fetch (search_url book_name) with
  | .error e => .error e
  | .ok page =>
    match page.firstBooklinkHref with
    | some href => .ok (some ("https://www.gutenberg.org" ++ href ++ ".txt.utf-8"))
    | none => .ok none

/-- Model of scrape_novel (source lines 44-52): the fetch is wrapped in a
try block catching every request exception, so a network or HTTP-status
error degrades to an absent result (the source shows an error message and
returns None). -/
def scrape_novel (fetch : String → Except NetError String) (url : String) :
    Option String :=
  match fetch url with
  | .ok body => some body
  | .error _ => none

/-- Outcome of one run of the Analyze Text section of the UI script
(source lines 178-185) on the current text. -/
inductive AnalyzeOutcome where
  | noAnalyzeUI
  | warnedNoValidWords
  | analyzed (rows : List RankedRow) (freq : List (String × Nat))
deriving DecidableEq, Repr

/-- Model of the Analyze Text handler (source lines 178-185): the control
is only offered when the stripped text is non-empty; with the button
pressed, an empty cleaned word list triggers the warning and skips
aggregation, otherwise get_word_stats runs. -/
def analyze_pipeline (text : String) : AnalyzeOutcome :=
  if (pyStrip text.data).isEmpty then .noAnalyzeUI
  else
    let words := clean_text text
    if words.isEmpty then .warnedNoValidWords
    else
      let (df, word_freq) := get_word_stats words
      .analyzed df word_freq

/-! Character-level facts. -/

theorem char_toNat_ofNat (n : Nat) (h : n < 55296) : (Char.ofNat n).toNat = n := by
  unfold Char.ofNat
  rw [dif_pos (Or.inl h)]
  rfl

theorem uint32_eq_of_toNat_eq {a b : UInt32} (h : a.toNat = b.toNat) : a = b := by
  cases a
  cases b
  congr 1
  exact BitVec.eq_of_toNat_eq h

theorem char_eq_of_toNat_eq {a b : Char} (h : a.toNat = b.toNat) : a = b := by
  cases a with
  | mk v hv =>
    cases b with
    | mk w hw =>
      have : v = w := uint32_eq_of_toNat_eq h
      subst this
      rfl

theorem char_ofNat_toNat (c : Char) (h : c.toNat < 55296) : Char.ofNat c.toNat = c :=
  char_eq_of_toNat_eq (char_toNat_ofNat c.toNat h)

theorem pyLower_toNat_of_upper (c : Char) (h : 65 ≤ c.toNat ∧ c.toNat ≤ 90) :
    (pyLower c).toNat = c.toNat + 32 := by
  unfold pyLower
  rw [if_pos h]
  exact char_toNat_ofNat _ (by omega)

theorem pyLower_of_not_upper (c : Char) (h : ¬(65 ≤ c.toNat ∧ c.toNat ≤ 90)) :
    pyLower c = c := by
  unfold pyLower
  rw [if_neg h]

theorem pyLower_not_upper (c : Char) :
    ¬(65 ≤ (pyLower c).toNat ∧ (pyLower c).toNat ≤ 90) := by
  by_cases h : 65 ≤ c.toNat ∧ c.toNat ≤ 90
  · rw [pyLower_toNat_of_upper c h]
    omega
  · rw [pyLower_of_not_upper c h]
    exact h

theorem isLowerAZ_of_alpha_not_upper (c : Char) (halpha : isAsciiAlpha c = true)
    (hupper : ¬(65 ≤ c.toNat ∧ c.toNat ≤ 90)) : isLowerAZ c = true := by
  simp only [isAsciiAlpha, decide_eq_true_eq] at halpha
  simp only [isLowerAZ, decide_eq_true_eq]
  omega

theorem not_isPySpace_of_isLowerAZ (c : Char) (h : isLowerAZ c = true) :
    isPySpace c = false := by
  simp only [isLowerAZ, decide_eq_true_eq] at h
  simp only [isPySpace, decide_eq_false_iff_not]
  omega

theorem pyLower_of_isLowerAZ (c : Char) (h : isLowerAZ c = true) : pyLower c = c := by
  apply pyLower_of_not_upper
  simp only [isLowerAZ, decide_eq_true_eq] at h
  omega

theorem pyLower_of_isPySpace (c : Char) (h : isPySpace c = true) : pyLower c = c := by
  apply pyLower_of_not_upper
  simp only [isPySpace, decide_eq_true_eq] at h
  omega

/-! Splitter facts. -/

theorem splitOnPAux_append (p : Char → Bool) (w : List Char) :
    ∀ (cs acc : List Char), (∀ c ∈ w, p c = false) →
      splitOnPAux p (w ++ cs) acc = splitOnPAux p cs (acc ++ w) := by
  induction w with
  | nil =>
    intro cs acc _
    simp
  | cons c w ih =>
    intro cs acc h
    have hc : p c = false := h c (by simp)
    simp only [List.cons_append, splitOnPAux, hc, Bool.false_eq_true, if_false,
      List.append_eq]
    rw [ih cs (acc ++ [c]) (fun d hd => h d (by simp [hd]))]
    simp

theorem splitOnP_joinChar (p : Char → Bool) (sep : Char) (hsep : p sep = true)
    (fs : List (List Char)) (hne : fs ≠ [])
    (hch : ∀ f ∈ fs, ∀ c ∈ f, p c = false) :
    splitOnP p (joinChar sep fs) = fs := by
  induction fs with
  | nil => exact absurd rfl hne
  | cons f fs ih =>
    have hf : ∀ c ∈ f, p c = false := hch f (by simp)
    cases fs with
    | nil =>
      show splitOnP p f = [f]
      unfold splitOnP
      have := splitOnPAux_append p f [] [] hf
      simp only [List.append_nil, List.nil_append, splitOnPAux] at this
      exact this
    | cons g gs =>
      show splitOnP p (f ++ sep :: joinChar sep (g :: gs)) = f :: g :: gs
      unfold splitOnP
      rw [splitOnPAux_append p f _ [] hf]
      simp only [List.nil_append, splitOnPAux, hsep, if_true]
      have := ih (by simp) (fun f hf => hch f (by simp [hf]))
      unfold splitOnP at this
      rw [this]

theorem pySplitAux_eq (cs : List Char) : ∀ acc,
    pySplitAux cs acc = (splitOnPAux isPySpace cs acc).filter (fun l => !l.isEmpty) := by
  induction cs with
  | nil =>
    intro acc
    cases acc <;> simp [pySplitAux, splitOnPAux]
  | cons c cs ih =>
    intro acc
    by_cases hc : isPySpace c = true
    · cases acc <;> simp [pySplitAux, splitOnPAux, hc, ih]
    · have hc' : isPySpace c = false := by simpa using hc
      simp [pySplitAux, splitOnPAux, hc', ih]

theorem mem_splitOnPAux (p : Char → Bool) (cs : List Char) :
    ∀ acc t, t ∈ splitOnPAux p cs acc → ∀ c ∈ t, c ∈ acc ∨ (c ∈ cs ∧ p c = false) := by
  induction cs with
  | nil =>
    intro acc t ht c hc
    simp only [splitOnPAux, List.mem_singleton] at ht
    subst ht
    exact Or.inl hc
  | cons c0 cs ih =>
    intro acc t ht c hc
    by_cases h0 : p c0 = true
    · simp only [splitOnPAux, h0, if_true, List.mem_cons] at ht
      rcases ht with rfl | ht
      · exact Or.inl hc
      · rcases ih [] t ht c hc with h | ⟨h1, h2⟩
        · simp at h
        · exact Or.inr ⟨List.mem_cons_of_mem _ h1, h2⟩
    · have h0' : p c0 = false := by simpa using h0
      simp only [splitOnPAux, h0', Bool.false_eq_true, if_false] at ht
      rcases ih (acc ++ [c0]) t ht c hc with h | ⟨h1, h2⟩
      · rcases List.mem_append.mp h with h | h
        · exact Or.inl h
        · simp only [List.mem_singleton] at h
          subst h
          exact Or.inr ⟨by simp, h0'⟩
      · exact Or.inr ⟨List.mem_cons_of_mem _ h1, h2⟩

theorem pySplitAux_all_space (cs : List Char) (h : ∀ c ∈ cs, isPySpace c = true) :
    pySplitAux cs [] = [] := by
  induction cs with
  | nil => rfl
  | cons c cs ih =>
    have hc : isPySpace c = true := h c (by simp)
    simp only [pySplitAux, hc, if_true, List.isEmpty_nil]
    exact ih (fun d hd => h d (by simp [hd]))

/-! Facts about the tokens produced by the normalizer. -/

theorem pySplit_eq_splitRuns (cs : List Char) : pySplit cs = splitRuns cs := by
  unfold pySplit splitRuns splitOnP
  exact pySplitAux_eq cs []

theorem clean_text_tokens (text : String) :
    ∀ w ∈ clean_text text, w.data ≠ [] ∧ (∀ c ∈ w.data, isLowerAZ c = true) ∧
      nltk_stopwords.contains w = false := by
  intro w hw
  simp only [clean_text] at hw
  obtain ⟨hw1, hw2⟩ := List.mem_filter.mp hw
  obtain ⟨t, ht, rfl⟩ := List.mem_map.mp hw1
  rw [pySplit_eq_splitRuns] at ht
  obtain ⟨ht1, ht2⟩ := List.mem_filter.mp ht
  refine ⟨?_, ?_, ?_⟩
  · show t ≠ []
    simpa [List.isEmpty_iff] using ht2
  · show ∀ c ∈ t, isLowerAZ c = true
    intro c hc
    rcases mem_splitOnPAux isPySpace _ [] t ht1 c hc with h | ⟨h1, h2⟩
    · simp at h
    · obtain ⟨hmem, hkeep⟩ := List.mem_filter.mp h1
      obtain ⟨a, _, rfl⟩ := List.mem_map.mp hmem
      have halpha : isAsciiAlpha (pyLower a) = true := by
        rcases Bool.or_eq_true_iff.mp hkeep with h | h
        · exact h
        · rw [h] at h2
          cases h2
      exact isLowerAZ_of_alpha_not_upper _ halpha (pyLower_not_upper a)
  · simpa using hw2

theorem clean_text_all_space (text : String)
    (h : ∀ c ∈ text.data, isPySpace c = true) : clean_text text = [] := by
  simp only [clean_text]
  have hsplit : pySplitAux (List.filter (fun c => isAsciiAlpha c || isPySpace c)
      (List.map pyLower text.data)) [] = [] := by
    apply pySplitAux_all_space
    intro c hc
    obtain ⟨hmem, _⟩ := List.mem_filter.mp hc
    obtain ⟨a, ha, rfl⟩ := List.mem_map.mp hmem
    rw [pyLower_of_isPySpace a (h a ha)]
    exact h a ha
  rw [show pySplit (List.filter (fun c => isAsciiAlpha c || isPySpace c)
      (List.map pyLower text.data)) = pySplitAux (List.filter
      (fun c => isAsciiAlpha c || isPySpace c) (List.map pyLower text.data)) [] from rfl]
  rw [hsplit]
  rfl

theorem joinChar_mem (sep : Char) (fs : List (List Char)) :
    ∀ c ∈ joinChar sep fs, c = sep ∨ ∃ f ∈ fs, c ∈ f := by
  induction fs with
  | nil =>
    intro c hc
    simp [joinChar] at hc
  | cons f fs ih =>
    intro c hc
    cases fs with
    | nil =>
      exact Or.inr ⟨f, by simp, hc⟩
    | cons g gs =>
      rcases List.mem_append.mp hc with h | h
      · exact Or.inr ⟨f, by simp, h⟩
      · rcases List.mem_cons.mp h with rfl | h
        · exact Or.inl rfl
        · rcases ih c h with h' | ⟨f', hf', hc'⟩
          · exact Or.inl h'
          · exact Or.inr ⟨f', by simp [hf'], hc'⟩

/-- Idempotence of the normalizer on any of its own outputs: re-cleaning the
space-joined token list returns the token list unchanged. -/
theorem clean_text_idem (x : String) :
    clean_text (joinSpace (clean_text x)) = clean_text x := by
  have htok := clean_text_tokens x
  set ts := clean_text x with hts
  have hjoin : ∀ c ∈ joinChar ' ' (ts.map String.data), c = ' ' ∨ isLowerAZ c = true := by
    intro c hc
    rcases joinChar_mem ' ' (ts.map String.data) c hc with h | ⟨f, hf, hcf⟩
    · exact Or.inl h
    · obtain ⟨w, hw, rfl⟩ := List.mem_map.mp hf
      exact Or.inr ((htok w hw).2.1 c hcf)
  have hspace : isPySpace ' ' = true := by decide
  show clean_text ⟨joinChar ' ' (ts.map String.data)⟩ = ts
  simp only [clean_text]
  have hlower : List.map pyLower (joinChar ' ' (ts.map String.data)) =
      joinChar ' ' (ts.map String.data) := by
    rw [List.map_congr_left, List.map_id]
    intro c hc
    rcases hjoin c hc with rfl | h
    · exact pyLower_of_isPySpace _ hspace
    · exact pyLower_of_isLowerAZ _ h
  have hfilter : List.filter (fun c => isAsciiAlpha c || isPySpace c)
      (joinChar ' ' (ts.map String.data)) = joinChar ' ' (ts.map String.data) := by
    rw [List.filter_eq_self]
    intro c hc
    rcases hjoin c hc with rfl | h
    · simp [hspace]
    · simp only [isLowerAZ, decide_eq_true_eq] at h
      simp only [isAsciiAlpha, Bool.or_eq_true, decide_eq_true_eq]
      exact Or.inl (Or.inr h)
  rw [hlower, hfilter]
  have hsplit : pySplit (joinChar ' ' (ts.map String.data)) = ts.map String.data := by
    cases hts' : ts with
    | nil => simp [pySplit, pySplitAux, joinChar]
    | cons w ws =>
      rw [pySplit_eq_splitRuns]
      unfold splitRuns
      rw [splitOnP_joinChar isPySpace ' ' hspace _ (by simp) ?_]
      · rw [List.filter_eq_self]
        intro f hf
        obtain ⟨v, hv, rfl⟩ := List.mem_map.mp hf
        rw [← hts'] at hv
        have := (htok v hv).1
        simpa [List.isEmpty_iff] using this
      · intro f hf c hc
        rw [← hts'] at hf
        obtain ⟨v, hv, rfl⟩ := List.mem_map.mp hf
        exact not_isPySpace_of_isLowerAZ c ((htok v hv).2.1 c hc)
  rw [hsplit]
  have hmk : (ts.map String.data).map (fun w => String.mk w) = ts := by
    rw [List.map_map]
    have : ∀ s : String, String.mk s.data = s := by
      intro s
      cases s
      rfl
    simp [Function.comp_def, this]
  rw [hmk]
  rw [List.filter_eq_self]
  intro w hw
  rw [(htok w hw).2.2]
  rfl

/-! Counting facts: the counter keys are the distinct words and their
counts sum to the number of words. -/

theorem mem_dedupFirstAux (l : List String) :
    ∀ seen x, x ∈ dedupFirstAux seen l → x ∈ l ∧ seen.contains x = false := by
  induction l with
  | nil =>
    intro seen x hx
    simp [dedupFirstAux] at hx
  | cons w ws ih =>
    intro seen x hx
    by_cases hw : seen.contains w = true
    · simp only [dedupFirstAux, hw, if_true] at hx
      obtain ⟨h1, h2⟩ := ih seen x hx
      exact ⟨List.mem_cons_of_mem _ h1, h2⟩
    · have hw' : seen.contains w = false := by simpa using hw
      simp only [dedupFirstAux, hw', Bool.false_eq_true, if_false, List.mem_cons] at hx
      rcases hx with rfl | hx
      · exact ⟨by simp, hw'⟩
      · obtain ⟨h1, h2⟩ := ih (seen ++ [w]) x hx
        have h3 : (seen.contains x || (x == w)) = false := by
          simpa [List.contains_eq_any_beq, List.any_append] using h2
        exact ⟨List.mem_cons_of_mem _ h1, (Bool.or_eq_false_iff.mp h3).1⟩

theorem count_filter_split (l : List String) (p : String → Bool) (w : String)
    (hw : p w = true) :
    (l.filter p).length = l.count w + (l.filter (fun x => p x && x != w)).length := by
  induction l with
  | nil => simp
  | cons y ys ih =>
    by_cases hy : y = w
    · subst hy
      have hne : (y != y) = false := by simp
      simp only [List.filter_cons, hw, if_true, List.count_cons_self, hne,
        Bool.and_false, Bool.false_eq_true, if_false, List.length_cons]
      omega
    · have hcnt : (y :: ys).count w = ys.count w :=
        List.count_cons_of_ne (fun h => hy h.symm) ys
      have hne : (y != w) = true := by simpa using hy
      cases hp : p y with
      | true =>
        simp only [List.filter_cons, hp, if_true, hne, Bool.and_true,
          List.length_cons, hcnt]
        omega
      | false =>
        simp only [List.filter_cons, hp, Bool.false_eq_true, if_false, hne,
          Bool.and_true, hcnt]
        exact ih

theorem dedupFirstAux_sum (l : List String) :
    ∀ seen, ((dedupFirstAux seen l).map (fun w => l.count w)).sum
      = (l.filter (fun x => !seen.contains x)).length := by
  induction l with
  | nil => intro seen; simp [dedupFirstAux]
  | cons w ws ih =>
    intro seen
    by_cases hw : seen.contains w = true
    · simp only [dedupFirstAux, hw, if_true]
      have hmap : (dedupFirstAux seen ws).map (fun x => (w :: ws).count x)
          = (dedupFirstAux seen ws).map (fun x => ws.count x) := by
        apply List.map_congr_left
        intro x hx
        obtain ⟨_, hxs⟩ := mem_dedupFirstAux ws seen x hx
        have hxw : x ≠ w := by
          intro h
          rw [h, hw] at hxs
          cases hxs
        exact List.count_cons_of_ne hxw ws
      rw [hmap, ih seen]
      have hmem : w ∈ seen := by simpa using hw
      simp [List.filter_cons, hmem]
    · have hw' : seen.contains w = false := by simpa using hw
      simp only [dedupFirstAux, hw', Bool.false_eq_true, if_false, List.map_cons,
        List.sum_cons, List.count_cons_self]
      have hmap : (dedupFirstAux (seen ++ [w]) ws).map (fun x => (w :: ws).count x)
          = (dedupFirstAux (seen ++ [w]) ws).map (fun x => ws.count x) := by
        apply List.map_congr_left
        intro x hx
        obtain ⟨_, hxs⟩ := mem_dedupFirstAux ws (seen ++ [w]) x hx
        have h3 : (seen.contains x || (x == w)) = false := by
          simpa [List.contains_eq_any_beq, List.any_append] using hxs
        have hxw : x ≠ w := by
          have := (Bool.or_eq_false_iff.mp h3).2
          simpa using this
        exact List.count_cons_of_ne hxw ws
      rw [hmap, ih (seen ++ [w])]
      have hfc : ws.filter (fun x => !(seen ++ [w]).contains x)
          = ws.filter (fun x => (!seen.contains x) && (x != w)) := by
        apply List.filter_congr
        intro x _
        simp [List.contains_eq_any_beq, List.any_append, Bool.not_or, bne,
          Bool.beq_eq_decide_eq]
      rw [hfc]
      have hsplit := count_filter_split ws (fun x => !seen.contains x) w
        (by show (!seen.contains w) = true
            rw [hw']
            rfl)
      have hfc2 : ws.filter (fun x => (!seen.contains x) && (x != w))
          = ws.filter (fun x => (fun x => !seen.contains x) x && (x != w)) := rfl
      simp only [List.filter_cons, hw', Bool.not_false, if_true, List.length_cons]
      rw [hfc2]
      omega

theorem dedupFirst_sum (ws : List String) :
    ((dedupFirst ws).map (fun w => ws.count w)).sum = ws.length := by
  have h := dedupFirstAux_sum ws []
  simpa [dedupFirst, List.filter_eq_self] using h

/-! Strip facts. -/

theorem pyStrip_all_space (cs : List Char) (h : ∀ c ∈ cs, isPySpace c = true) :
    pyStrip cs = [] := by
  unfold pyStrip
  rw [List.dropWhile_eq_nil_iff.mpr h]
  rfl

/-! Sorting and ranking facts. -/

theorem mem_insertByFreq (e : Entry) (l : List Entry) :
    ∀ x ∈ insertByFreq e l, x = e ∨ x ∈ l := by
  induction l with
  | nil =>
    intro x hx
    simp only [insertByFreq, List.mem_singleton] at hx
    exact Or.inl hx
  | cons y ys ih =>
    intro x hx
    unfold insertByFreq at hx
    by_cases h : y.2.1 ≤ e.2.1
    · rw [if_pos h] at hx
      rcases List.mem_cons.mp hx with rfl | hx
      · exact Or.inl rfl
      · exact Or.inr hx
    · rw [if_neg h] at hx
      rcases List.mem_cons.mp hx with rfl | hx
      · exact Or.inr (by simp)
      · rcases ih x hx with h' | h'
        · exact Or.inl h'
        · exact Or.inr (List.mem_cons_of_mem _ h')

theorem mem_sortByFreqDesc (l : List Entry) : ∀ x ∈ sortByFreqDesc l, x ∈ l := by
  induction l with
  | nil =>
    intro x hx
    simp [sortByFreqDesc] at hx
  | cons e es ih =>
    intro x hx
    rcases mem_insertByFreq e (sortByFreqDesc es) x hx with rfl | hx
    · simp
    · exact List.mem_cons_of_mem _ (ih x hx)

theorem length_insertByFreq (e : Entry) (l : List Entry) :
    (insertByFreq e l).length = l.length + 1 := by
  induction l with
  | nil => rfl
  | cons y ys ih =>
    unfold insertByFreq
    by_cases h : y.2.1 ≤ e.2.1
    · rw [if_pos h]
      rfl
    · rw [if_neg h]
      simp [ih]

theorem length_sortByFreqDesc (l : List Entry) :
    (sortByFreqDesc l).length = l.length := by
  induction l with
  | nil => rfl
  | cons e es ih =>
    show (insertByFreq e (sortByFreqDesc es)).length = es.length + 1
    rw [length_insertByFreq, ih]

theorem chain_insertByFreq (e : Entry) (l : List Entry)
    (h : List.Chain' (fun a b : Entry => b.2.1 ≤ a.2.1) l) :
    List.Chain' (fun a b : Entry => b.2.1 ≤ a.2.1) (insertByFreq e l) := by
  induction l with
  | nil => simp [insertByFreq]
  | cons y ys ih =>
    unfold insertByFreq
    by_cases hy : y.2.1 ≤ e.2.1
    · rw [if_pos hy]
      exact List.chain'_cons.mpr ⟨hy, h⟩
    · rw [if_neg hy]
      obtain ⟨hhd, hys⟩ := List.chain'_cons'.mp h
      apply List.chain'_cons'.mpr
      refine ⟨?_, ih hys⟩
      intro z hz
      cases ys with
      | nil =>
        simp only [insertByFreq, List.head?_cons, Option.mem_some_iff] at hz
        subst hz
        omega
      | cons u us =>
        unfold insertByFreq at hz
        by_cases hu : u.2.1 ≤ e.2.1
        · rw [if_pos hu] at hz
          simp only [List.head?_cons, Option.mem_some_iff] at hz
          subst hz
          omega
        · rw [if_neg hu] at hz
          simp only [List.head?_cons, Option.mem_some_iff] at hz
          subst hz
          exact hhd u (by simp)

theorem chain_sortByFreqDesc (l : List Entry) :
    List.Chain' (fun a b : Entry => b.2.1 ≤ a.2.1) (sortByFreqDesc l) := by
  induction l with
  | nil => simp [sortByFreqDesc]
  | cons e es ih => exact chain_insertByFreq e _ ih

theorem rankRowsFrom_map_rank (es : List Entry) :
    ∀ k, (rankRowsFrom k es).map RankedRow.rank = List.range' k es.length := by
  induction es with
  | nil => intro k; rfl
  | cons e es ih =>
    intro k
    show RankedRow.rank ⟨k, e.1, e.2.1, e.2.2⟩ ::
      (rankRowsFrom (k + 1) es).map RankedRow.rank = List.range' k (es.length + 1)
    rw [ih (k + 1)]
    rfl

theorem length_rankRowsFrom (es : List Entry) :
    ∀ k, (rankRowsFrom k es).length = es.length := by
  induction es with
  | nil => intro k; rfl
  | cons e es ih =>
    intro k
    show (rankRowsFrom (k + 1) es).length + 1 = es.length + 1
    rw [ih (k + 1)]

theorem mem_rankRowsFrom (es : List Entry) :
    ∀ k r, r ∈ rankRowsFrom k es →
      ∃ e ∈ es, r.word = e.1 ∧ r.frequency = e.2.1 ∧ r.pctOfText = e.2.2 := by
  induction es with
  | nil =>
    intro k r hr
    simp [rankRowsFrom] at hr
  | cons e es ih =>
    intro k r hr
    rcases List.mem_cons.mp hr with rfl | hr
    · exact ⟨e, by simp, rfl, rfl, rfl⟩
    · obtain ⟨e', he', h⟩ := ih (k + 1) r hr
      exact ⟨e', List.mem_cons_of_mem _ he', h⟩

theorem chain_rankRowsFrom (es : List Entry)
    (h : List.Chain' (fun a b : Entry => b.2.1 ≤ a.2.1) es) :
    ∀ k, List.Chain' (fun r s : RankedRow => s.frequency ≤ r.frequency)
      (rankRowsFrom k es) := by
  induction es with
  | nil => intro k; simp [rankRowsFrom]
  | cons e es ih =>
    intro k
    cases es with
    | nil => simp [rankRowsFrom]
    | cons f fs =>
      obtain ⟨h1, h2⟩ := List.chain'_cons.mp h
      show List.Chain' _ (⟨k, e.1, e.2.1, e.2.2⟩ :: ⟨k + 1, f.1, f.2.1, f.2.2⟩ ::
        rankRowsFrom (k + 2) fs)
      apply List.chain'_cons.mpr
      exact ⟨h1, ih h2 (k + 1)⟩

/-! CSV and base64 facts. -/

theorem digitChar_toNat (d : Nat) (h : d < 10) : (digitChar d).toNat = 48 + d :=
  char_toNat_ofNat _ (by omega)

theorem digitChar_csvSafe (d : Nat) (h : d < 10) : csvSafe (digitChar d) := by
  unfold csvSafe
  rw [digitChar_toNat d h]
  omega

theorem mem_natCharsAux_digit (fuel : Nat) :
    ∀ n c, c ∈ natCharsAux fuel n → ∃ d, d < 10 ∧ c = digitChar d := by
  induction fuel with
  | zero =>
    intro n c hc
    simp [natCharsAux] at hc
  | succ fuel ih =>
    intro n c hc
    by_cases h : n < 10
    · simp only [natCharsAux, h, if_true, List.mem_singleton] at hc
      exact ⟨n, h, hc⟩
    · simp only [natCharsAux, h, if_false] at hc
      rcases List.mem_append.mp hc with h' | h'
      · exact ih (n / 10) c h'
      · simp only [List.mem_singleton] at h'
        exact ⟨n % 10, Nat.mod_lt _ (by omega), h'⟩

theorem natChars_csvSafe (n : Nat) : ∀ c ∈ natChars n, csvSafe c := by
  intro c hc
  obtain ⟨d, hd, rfl⟩ := mem_natCharsAux_digit (n + 1) n c hc
  exact digitChar_csvSafe d hd

theorem fracChars_csvSafe (fr : Nat) (h : fr < 100) : ∀ c ∈ fracChars fr, csvSafe c := by
  intro c hc
  unfold fracChars at hc
  by_cases h0 : fr = 0
  · simp only [h0, if_true] at hc
    simp only [List.mem_singleton] at hc
    subst hc
    decide
  · rw [if_neg h0] at hc
    by_cases h1 : fr % 10 = 0
    · rw [if_pos h1] at hc
      simp only [List.mem_singleton] at hc
      subst hc
      exact digitChar_csvSafe _ (by omega)
    · rw [if_neg h1] at hc
      by_cases h2 : fr < 10
      · rw [if_pos h2] at hc
        rcases List.mem_cons.mp hc with rfl | hc
        · decide
        · simp only [List.mem_singleton] at hc
          subst hc
          exact digitChar_csvSafe _ h2
      · rw [if_neg h2] at hc
        rcases List.mem_cons.mp hc with rfl | hc
        · exact digitChar_csvSafe _ (by omega)
        · simp only [List.mem_singleton] at hc
          subst hc
          exact digitChar_csvSafe _ (Nat.mod_lt _ (by omega))

theorem pctChars_csvSafe (f total : Nat) : ∀ c ∈ pctChars f total, csvSafe c := by
  intro c hc
  unfold pctChars at hc
  rcases List.mem_append.mp hc with h | h
  · rcases List.mem_append.mp h with h | h
    · rcases List.mem_append.mp h with h | h
      · exact natChars_csvSafe _ c h
      · simp only [List.mem_singleton] at h
        subst h
        decide
    · exact fracChars_csvSafe _ (Nat.mod_lt _ (by omega)) c h
  · rcases List.mem_cons.mp h with rfl | h
    · decide
    · simp only [List.mem_singleton] at h
      subst h
      decide

theorem isLowerAZ_csvSafe (c : Char) (h : isLowerAZ c = true) : csvSafe c := by
  simp only [isLowerAZ, decide_eq_true_eq] at h
  unfold csvSafe
  omega

theorem csvField_eq_self (cs : List Char) (h : ∀ c ∈ cs, csvSafe c) :
    csvField cs = cs := by
  unfold csvField
  have hq : needsQuote cs = false := by
    unfold needsQuote
    rw [List.any_eq_false]
    intro c hc
    have := h c hc
    unfold csvSafe at this
    simp only [decide_eq_true_eq]
    omega
  rw [hq]
  rfl

theorem joinChar_ne_nil (sep : Char) (a b : List Char) (rest : List (List Char)) :
    joinChar sep (a :: b :: rest) ≠ [] := by
  show a ++ sep :: joinChar sep (b :: rest) ≠ []
  intro h
  exact absurd (List.append_eq_nil.mp h).2 (by simp)

theorem csvLine_of_safe (fs : List (List Char)) (h : ∀ f ∈ fs, ∀ c ∈ f, csvSafe c) :
    csvLine fs = joinChar ',' fs ++ ['\n'] := by
  unfold csvLine
  rw [List.map_congr_left (fun f hf => csvField_eq_self f (h f hf))]
  simp

theorem beq_false_of_csvSafe_nl (c : Char) (h : csvSafe c) : (c == '\n') = false := by
  apply beq_eq_false_iff_ne.mpr
  intro hc
  subst hc
  exact h.2.2.2.1 (by decide)

theorem beq_false_of_csvSafe_comma (c : Char) (h : csvSafe c) : (c == ',') = false := by
  apply beq_eq_false_iff_ne.mpr
  intro hc
  subst hc
  exact h.2.1 (by decide)

theorem parse_to_csv (fss : List (List (List Char)))
    (h : ∀ fs ∈ fss, 2 ≤ fs.length ∧ ∀ f ∈ fs, ∀ c ∈ f, csvSafe c) :
    parseCsv (fss.flatMap csvLine) = fss := by
  induction fss with
  | nil => rfl
  | cons fs rest ih =>
    obtain ⟨hlen, hsafe⟩ := h fs (by simp)
    have hline := csvLine_of_safe fs hsafe
    have hnlfree : ∀ c ∈ joinChar ',' fs, (c == '\n') = false := by
      intro c hc
      rcases joinChar_mem ',' fs c hc with rfl | ⟨f, hf, hcf⟩
      · decide
      · exact beq_false_of_csvSafe_nl c (hsafe f hf c hcf)
    have hsplit : splitOnP (fun c => c == '\n') ((fs :: rest).flatMap csvLine)
        = joinChar ',' fs :: splitOnP (fun c => c == '\n') (rest.flatMap csvLine) := by
      show splitOnP (fun c => c == '\n') (csvLine fs ++ rest.flatMap csvLine) = _
      rw [hline, List.append_assoc]
      unfold splitOnP
      rw [splitOnPAux_append _ _ _ [] hnlfree]
      simp [splitOnPAux]
    have hne : (!(joinChar ',' fs).isEmpty) = true := by
      obtain ⟨a, b, rest', hfs⟩ : ∃ a b rest', fs = a :: b :: rest' := by
        cases fs with
        | nil => simp at hlen
        | cons a fs' =>
          cases fs' with
          | nil => simp at hlen
          | cons b rest' => exact ⟨a, b, rest', rfl⟩
      subst hfs
      have := joinChar_ne_nil ',' a b rest'
      simpa [List.isEmpty_iff] using this
    unfold parseCsv
    rw [hsplit]
    simp only [List.filter_cons, hne, if_true, List.map_cons]
    have htail := ih (fun fs' hfs' => h fs' (by simp [hfs']))
    unfold parseCsv at htail
    rw [htail]
    congr 1
    apply splitOnP_joinChar (fun c => c == ',') ',' (by decide) fs
      (by intro hfs; rw [hfs] at hlen; simp at hlen)
    intro f hf c hc
    exact beq_false_of_csvSafe_comma c (hsafe f hf c hc)

theorem flatMap_csvLine_ascii (fss : List (List (List Char)))
    (h : ∀ fs ∈ fss, ∀ f ∈ fs, ∀ c ∈ f, csvSafe c) :
    ∀ c ∈ fss.flatMap csvLine, c.toNat < 128 := by
  induction fss with
  | nil =>
    intro c hc
    simp at hc
  | cons fs rest ih =>
    intro c hc
    rcases List.mem_append.mp hc with hc | hc
    · unfold csvLine at hc
      rcases List.mem_append.mp hc with hc | hc
      · rcases joinChar_mem ',' (fs.map csvField) c hc with rfl | ⟨f, hf, hcf⟩
        · decide
        · obtain ⟨f0, hf0, rfl⟩ := List.mem_map.mp hf
          have hsafe := h fs (by simp) f0 hf0
          rw [csvField_eq_self f0 hsafe] at hcf
          exact (hsafe c hcf).1
      · simp only [List.mem_singleton] at hc
        subst hc
        decide
    · exact ih (fun fs' hfs' => h fs' (by simp [hfs'])) c hc

theorem utf8Bytes_ascii (c : Char) (h : c.toNat < 128) : utf8Bytes c = [c.toNat] := by
  unfold utf8Bytes
  rw [if_pos h]

theorem flatMap_utf8_ascii (cs : List Char) (h : ∀ c ∈ cs, c.toNat < 128) :
    cs.flatMap utf8Bytes = cs.map Char.toNat := by
  induction cs with
  | nil => rfl
  | cons c cs ih =>
    show utf8Bytes c ++ cs.flatMap utf8Bytes = c.toNat :: cs.map Char.toNat
    rw [utf8Bytes_ascii c (h c (by simp)), ih (fun d hd => h d (by simp [hd]))]
    rfl

theorem map_ofNat_toNat (cs : List Char) (h : ∀ c ∈ cs, c.toNat < 128) :
    (cs.map Char.toNat).map Char.ofNat = cs := by
  rw [List.map_map]
  have : ∀ c ∈ cs, (Char.ofNat ∘ Char.toNat) c = c := by
    intro c hc
    exact char_ofNat_toNat c (by have := h c hc; omega)
  rw [List.map_congr_left this]
  simp

theorem b64_index_char : ∀ k, k < 64 → b64Index (b64Char k) = k := by decide

theorem b64_char_ne_eq : ∀ k, k < 64 → b64Char k ≠ '=' := by decide

theorem b64_roundtrip (bs : List Nat) (h : ∀ b ∈ bs, b < 256) :
    b64Decode (b64Encode bs) = bs := by
  induction bs using b64Encode.induct with
  | case1 b1 b2 b3 rest ih =>
    have hb1 : b1 < 256 := h b1 (by simp)
    have hb2 : b2 < 256 := h b2 (by simp)
    have hb3 : b3 < 256 := h b3 (by simp)
    show b64Decode (b64Char _ :: b64Char _ :: b64Char _ :: b64Char _ :: b64Encode rest)
      = b1 :: b2 :: b3 :: rest
    unfold b64Decode
    rw [if_neg (b64_char_ne_eq _ (Nat.mod_lt _ (by omega)))]
    rw [if_neg (b64_char_ne_eq _ (Nat.mod_lt _ (by omega)))]
    rw [b64_index_char _ (by omega), b64_index_char _ (Nat.mod_lt _ (by omega)),
      b64_index_char _ (Nat.mod_lt _ (by omega)), b64_index_char _ (Nat.mod_lt _ (by omega))]
    rw [ih (fun b hb => h b (by simp [hb]))]
    simp only [List.cons.injEq]
    refine ⟨by omega, by omega, by omega, trivial⟩
  | case2 b1 b2 =>
    have hb1 : b1 < 256 := h b1 (by simp)
    have hb2 : b2 < 256 := h b2 (by simp)
    show b64Decode [b64Char _, b64Char _, b64Char _, '='] = [b1, b2]
    unfold b64Decode
    rw [if_neg (b64_char_ne_eq _ (Nat.mod_lt _ (by omega)))]
    rw [if_pos rfl]
    rw [b64_index_char _ (by omega), b64_index_char _ (Nat.mod_lt _ (by omega)),
      b64_index_char _ (Nat.mod_lt _ (by omega))]
    simp only [List.cons.injEq]
    refine ⟨by omega, by omega, trivial⟩
  | case3 b1 =>
    have hb1 : b1 < 256 := h b1 (by simp)
    show b64Decode [b64Char _, b64Char _, '=', '='] = [b1]
    unfold b64Decode
    rw [if_pos rfl]
    rw [b64_index_char _ (by omega), b64_index_char _ (Nat.mod_lt _ (by omega))]
    simp only [List.cons.injEq]
    refine ⟨by omega, trivial⟩
  | case4 => rfl

theorem stats_rows_fields_safe (ws : List String)
    (hws : ∀ w ∈ ws, ∀ c ∈ w.data, isLowerAZ c = true) :
    ∀ r ∈ (get_word_stats ws).fst, ∀ f ∈ rowFields r, ∀ c ∈ f, csvSafe c := by
  intro r hr
  simp only [get_word_stats] at hr
  obtain ⟨e, he, hword, hfreq, hpct⟩ := mem_rankRowsFrom _ 1 r hr
  have he' := mem_sortByFreqDesc _ e he
  obtain ⟨p, hp, hpe⟩ := List.mem_map.mp he'
  obtain ⟨w1, hw1, hw1p⟩ := List.mem_map.mp hp
  have hw1mem : w1 ∈ ws := (mem_dedupFirstAux _ [] w1 hw1).1
  intro f hf c hc
  simp only [rowFields, List.mem_cons, List.not_mem_nil, or_false] at hf
  rcases hf with rfl | rfl | rfl | rfl
  · exact natChars_csvSafe _ c hc
  · rw [hword, ← hpe, ← hw1p] at hc
    exact isLowerAZ_csvSafe c (hws w1 hw1mem c hc)
  · exact natChars_csvSafe _ c hc
  · rw [hpct, ← hpe] at hc
    exact pctChars_csvSafe _ _ c hc

/-! The claims. -/

/-- Claim C1: for every non-empty token list, the ranked table produced by
get_word_stats has its Rank column equal to the contiguous sequence
1, 2, ..., n where n is the number of unique tokens, and the Frequency
column is non-increasing as rank increases. -/
theorem c1_ranks_contiguous_freq_monotone (ws : List String) (hne : ws ≠ []) :
    ((get_word_stats ws).fst.map RankedRow.rank
        = List.range' 1 (dedupFirst ws).length) ∧
    List.Chain' (fun r s : RankedRow => s.frequency ≤ r.frequency)
      (get_word_stats ws).fst := by
  constructor
  · show (rankRowsFrom 1 _).map RankedRow.rank = _
    rw [rankRowsFrom_map_rank, length_sortByFreqDesc]
    simp [counterItems]
  · show List.Chain' _ (rankRowsFrom 1 _)
    exact chain_rankRowsFrom _ (chain_sortByFreqDesc _) 1

theorem c1_witness :
    (["b", "a", "b"] : List String) ≠ [] ∧
    (((get_word_stats ["b", "a", "b"]).fst.map RankedRow.rank
        = List.range' 1 (dedupFirst ["b", "a", "b"]).length) ∧
      List.Chain' (fun r s : RankedRow => s.frequency ≤ r.frequency)
        (get_word_stats ["b", "a", "b"]).fst) :=
  ⟨by decide, c1_ranks_contiguous_freq_monotone ["b", "a", "b"] (by decide)⟩

/-- Claim C2: for every token list, the counts of the frequency table
returned by get_word_stats sum to the length of the input token list. -/
theorem c2_counts_sum_to_length (ws : List String) :
    ((get_word_stats ws).snd.map (fun p => p.2)).sum = ws.length := by
  show ((counterItems ws).map (fun p => p.2)).sum = ws.length
  unfold counterItems
  rw [List.map_map]
  exact dedupFirst_sum ws

/-- Claim C3: clean_text computes exactly the spec's four-step algorithm
(lowercase, delete non-letter non-whitespace characters, split on
whitespace runs, remove stopwords), and its output is an ordered sequence
of non-empty lowercase alphabetic tokens none of which is a stopword,
order and duplicates preserved by construction. -/
theorem c3_clean_text_matches_spec (text : String) :
    clean_text text = cleanSpec text ∧
    ∀ w ∈ clean_text text, w.data ≠ [] ∧ (∀ c ∈ w.data, isLowerAZ c = true) ∧
      nltk_stopwords.contains w = false := by
  refine ⟨?_, clean_text_tokens text⟩
  simp only [clean_text, cleanSpec]
  rw [pySplit_eq_splitRuns]

/-- Claim C4 counterexample: a network error during the catalog fetch is
not caught by get_book_url; with a fetch oracle that raises a connection
error, the resolver propagates the exception (error result) instead of
degrading to the absence value as the claim states. -/
theorem c4_counterexample :
    get_book_url (fun _ => Except.error NetError.connectionError) "dracula"
      = Except.error NetError.connectionError := rfl

/-- Claim C4 amended: a network error during the catalog fetch propagates
out of get_book_url as an exception (it is not caught); when the fetch
succeeds, a page with no result element yields the absence value and a
page with a first result yields the plain-text download URL.  The
novel-content fetch, scrape_novel, does catch every network error and
degrades to an absent result. -/
theorem c4_amended_resolver_errors :
    (∀ (e : NetError) (name : String),
      get_book_url (fun _ => Except.error e) name = Except.error e) ∧
    (∀ name : String,
      get_book_url (fun _ => Except.ok ⟨none⟩) name = Except.ok none) ∧
    (∀ (href name : String),
      get_book_url (fun _ => Except.ok ⟨some href⟩) name
        = Except.ok (some ("https://www.gutenberg.org" ++ href ++ ".txt.utf-8"))) ∧
    (∀ (e : NetError) (url : String),
      scrape_novel (fun _ => Except.error e) url = none) ∧
    (∀ (body url : String), scrape_novel (fun _ => Except.ok body) url = some body) :=
  ⟨fun _ _ => rfl, fun _ => rfl, fun _ _ => rfl, fun _ _ => rfl, fun _ _ => rfl⟩

/-- Claim C5: on the text "The cat sat on the mat. The cat ran." the
normalizer yields [cat, sat, mat, cat, ran]; the frequency table is
cat 2, sat 1, mat 1, ran 1; the percentage column reads 40.0 percent for
cat and 20.0 percent for the others; and rank 1 is cat. -/
theorem c5_concrete_example :
    clean_text "The cat sat on the mat. The cat ran."
      = ["cat", "sat", "mat", "cat", "ran"] ∧
    (get_word_stats ["cat", "sat", "mat", "cat", "ran"]).snd
      = [("cat", 2), ("sat", 1), ("mat", 1), ("ran", 1)] ∧
    ((get_word_stats ["cat", "sat", "mat", "cat", "ran"]).fst.map RankedRow.frequency)
      = [2, 1, 1, 1] ∧
    ((get_word_stats ["cat", "sat", "mat", "cat", "ran"]).fst.map RankedRow.pctOfText)
      = ["40.0 %", "20.0 %", "20.0 %", "20.0 %"] ∧
    ((get_word_stats ["cat", "sat", "mat", "cat", "ran"]).fst.map RankedRow.rank)
      = [1, 2, 3, 4] ∧
    ((get_word_stats ["cat", "sat", "mat", "cat", "ran"]).fst.map RankedRow.word).head?
      = some "cat" := by decide

/-- Claim C6: for every ranked table the pipeline produces, the export
payload of download_button decodes (base64, then CSV) back to the header
Rank, Word, Frequency, percent-of-text followed by exactly the ranked rows
in order. -/
theorem c6_download_roundtrip (text : String) :
    parseCsv ((b64Decode (download_payload (get_word_stats (clean_text text)).fst)).map
        Char.ofNat)
      = csvHeaderFields :: ((get_word_stats (clean_text text)).fst).map rowFields := by
  have htok := clean_text_tokens text
  have hsafe := stats_rows_fields_safe (clean_text text) (fun w hw => (htok w hw).2.1)
  have hsafety : ∀ fs ∈ csvHeaderFields :: ((get_word_stats (clean_text text)).fst).map
      rowFields, 2 ≤ fs.length ∧ ∀ f ∈ fs, ∀ c ∈ f, csvSafe c := by
    intro fs hfs
    rcases List.mem_cons.mp hfs with rfl | hfs
    · exact ⟨by decide, by decide⟩
    · obtain ⟨r, hr, rfl⟩ := List.mem_map.mp hfs
      exact ⟨by simp [rowFields], hsafe r hr⟩
  have hascii : ∀ c ∈ to_csv (get_word_stats (clean_text text)).fst, c.toNat < 128 :=
    flatMap_csvLine_ascii _ (fun fs hfs => (hsafety fs hfs).2)
  show parseCsv ((b64Decode (b64Encode ((to_csv _).flatMap utf8Bytes))).map Char.ofNat) = _
  rw [flatMap_utf8_ascii _ hascii]
  rw [b64_roundtrip _ (by
    intro b hb
    obtain ⟨c, hc, rfl⟩ := List.mem_map.mp hb
    have := hascii c hc
    omega)]
  rw [map_ofNat_toNat _ hascii]
  exact parse_to_csv _ hsafety

/-- Claim C7: the normalizer is idempotent on strings of lowercase letters
and spaces: cleaning the space-joined result of a clean run changes
nothing.  (The proof factors through idempotence on every input.) -/
theorem c7_normalizer_idempotent (x : String)
    (h : ∀ c ∈ x.data, isLowerAZ c = true ∨ c = ' ') :
    clean_text (joinSpace (clean_text x)) = clean_text x :=
  clean_text_idem x

theorem c7_witness :
    (∀ c ∈ ("cat the dog" : String).data, isLowerAZ c = true ∨ c = ' ') ∧
    clean_text (joinSpace (clean_text "cat the dog")) = clean_text "cat the dog" :=
  ⟨by decide, c7_normalizer_idempotent "cat the dog" (by decide)⟩

/-- Claim C8 counterexample: on the whitespace-only input the pipeline does
not report the no-valid-words warning; the analyze control is not offered
at all, because the handler is guarded by text.strip(). -/
theorem c8_counterexample :
    analyze_pipeline " " = AnalyzeOutcome.noAnalyzeUI ∧
    analyze_pipeline " " ≠ AnalyzeOutcome.warnedNoValidWords := by decide

/-- Claim C8 amended: for every empty or whitespace-only input, clean_text
returns the empty token list and the pipeline halts without invoking the
aggregator; but no warning is shown for such input: the Analyze control is
never offered, since text.strip() is empty.  (The warning appears only for
non-whitespace text whose cleaned token list is empty.) -/
theorem c8_amended_empty_input (text : String)
    (h : ∀ c ∈ text.data, isPySpace c = true) :
    clean_text text = [] ∧ analyze_pipeline text = AnalyzeOutcome.noAnalyzeUI := by
  refine ⟨clean_text_all_space text h, ?_⟩
  unfold analyze_pipeline
  rw [pyStrip_all_space text.data h]
  rfl

theorem c8_witness :
    (∀ c ∈ (" \t " : String).data, isPySpace c = true) ∧
    (clean_text " \t " = [] ∧ analyze_pipeline " \t " = AnalyzeOutcome.noAnalyzeUI) :=
  ⟨by decide, c8_amended_empty_input " \t " (by decide)⟩

/-- Claim C9: get_word_stats is total on the empty token list, which the
spec's precondition excludes: it returns the empty table and the empty
counter, and in the exact-arithmetic model the percentage column is
computed over no rows at all, so the zero total is never divided by. -/
theorem c9_empty_token_list :
    get_word_stats ([] : List String) = ([], []) := rfl

end WebScrapping
